import Mathlib

/-!
Verification of the karttapullautin-web specification: the in-memory virtual
filesystem and the binary grid codec, plus the GUI glue in `src/app.rs`
(dropped-file handling and heightmap preview rendering).

The filesystem and codec implementations live outside `src/` (they are
reached through the `pullauta` crate); those parts are modelled from the
spec, as marked on each definition.  The dropped-file handler and the
heightmap renderer are embedded from `src/app.rs` directly.
-/

namespace KPW

/-! ## Byte-level helpers for the codec -/

/-- A byte is a natural number; encoders only emit values `< 256`. -/
abbrev Byte := Nat

/-- Value of four bytes in little-endian order. -/
def leVal4 (b0 b1 b2 b3 : Byte) : Nat :=
  b0 + 256 * (b1 + 256 * (b2 + 256 * b3))

/-- Little-endian 4-byte encoding of a natural number (mod 2^32). -/
def u32le (n : Nat) : List Byte :=
  [n % 256, n / 256 % 256, n / 256 ^ 2 % 256, n / 256 ^ 3 % 256]

/-- Little-endian 8-byte encoding of a natural number (mod 2^64). -/
def u64le (n : Nat) : List Byte :=
  [n % 256, n / 256 % 256, n / 256 ^ 2 % 256, n / 256 ^ 3 % 256,
   n / 256 ^ 4 % 256, n / 256 ^ 5 % 256, n / 256 ^ 6 % 256, n / 256 ^ 7 % 256]

/-- Value of eight bytes in little-endian order. -/
def leVal8 (b0 b1 b2 b3 b4 b5 b6 b7 : Byte) : Nat :=
  b0 + 256 * (b1 + 256 * (b2 + 256 * (b3 + 256 * (b4 + 256 * (b5 + 256 * (b6 + 256 * b7))))))

/-- Read consecutive 8-byte little-endian cells; trailing bytes that do not
fill a cell are dropped (decode checks the length first, so this never
happens on accepted input). -/
def readCells : List Byte → List Nat
  | b0 :: b1 :: b2 :: b3 :: b4 :: b5 :: b6 :: b7 :: rest =>
      leVal8 b0 b1 b2 b3 b4 b5 b6 b7 :: readCells rest
  | _ => []

/-! ## Grid and codec.

Modelled from the spec: `Grid<f64>` (spec section 3) is a width x height dense
array in row-major order with `width * height == len(data)` as a standing
invariant.  Cells are IEEE-754 doubles; since the codec's contract is
bit-for-bit fidelity, a cell is represented here by its 64-bit pattern, a
natural number `< 2^64`. -/

structure Grid where
  width : Nat
  height : Nat
  data : List Nat
  deriving DecidableEq, Repr

/-- The standing invariant of the data model: row-major dense storage of
64-bit cell patterns. -/
def Grid.WF (g : Grid) : Prop :=
  g.data.length = g.width * g.height ∧ ∀ c ∈ g.data, c < 2 ^ 64

/-- Modelled from the spec: `iter()` (spec section 4.4) produces the finite
row-major sequence of (x, y, value) triples; entry `i` of the row-major
traversal is the cell at `x = i % width`, `y = i / width`. -/
def Grid.iter (g : Grid) : List (Nat × Nat × Nat) :=
  (List.range (g.width * g.height)).map
    (fun i => (i % g.width, i / g.width, g.data.getD i 0))

/-- Error taxonomy of the spec (section 7). -/
inductive FsError where
  | InvalidPath
  | NotFound
  | NotAFile
  | NotADirectory
  | PathCollision
  | OutOfBounds
  | CorruptArtifact
  | ImportIoError
  deriving DecidableEq, Repr

/-- Modelled from the spec: the codec's format tag is a fixed `u32` constant
(the spec fixes only that it is one constant; its value is private to the
codec). -/
def formatTag : Nat := 0x70616d68

/-- Modelled from the spec: `encode` (spec sections 4.5, 6) writes the header
`[u32 format_tag][u32 width][u32 height]` in a fixed (little-endian) byte
order, then `width*height` cells in row-major order, each as 8 bytes. -/
def encode (g : Grid) : List Byte :=
  u32le formatTag ++ u32le g.width ++ u32le g.height ++ (g.data.map u64le).flatten

/-- Modelled from the spec: `decode` (spec section 4.5) fails with
`CorruptArtifact` if the buffer is shorter than the header, if the format tag
does not match, or if the remaining length is not exactly `8*width*height`
bytes for the declared width and height. -/
def decode : List Byte → Except FsError Grid
  | t0 :: t1 :: t2 :: t3 :: w0 :: w1 :: w2 :: w3 :: h0 :: h1 :: h2 :: h3 :: rest =>
      let w := leVal4 w0 w1 w2 w3
      let h := leVal4 h0 h1 h2 h3
      if leVal4 t0 t1 t2 t3 ≠ formatTag then .error .CorruptArtifact
      else if rest.length ≠ 8 * (w * h) then .error .CorruptArtifact
      else .ok ⟨w, h, readCells rest⟩
  | _ => .error .CorruptArtifact

/-! ### Codec round-trip lemmas -/

theorem u64le_length (n : Nat) : (u64le n).length = 8 := rfl

theorem leVal4_u32le (n : Nat) (h : n < 2 ^ 32) :
    leVal4 (n % 256) (n / 256 % 256) (n / 256 ^ 2 % 256) (n / 256 ^ 3 % 256) = n := by
  have h256 : (0:Nat) < 256 := by norm_num
  simp only [leVal4]
  omega

theorem leVal8_u64le (n : Nat) (h : n < 2 ^ 64) :
    leVal8 (n % 256) (n / 256 % 256) (n / 256 ^ 2 % 256) (n / 256 ^ 3 % 256)
      (n / 256 ^ 4 % 256) (n / 256 ^ 5 % 256) (n / 256 ^ 6 % 256) (n / 256 ^ 7 % 256) = n := by
  simp only [leVal8]
  omega

theorem readCells_flatten (cells : List Nat) (h : ∀ c ∈ cells, c < 2 ^ 64) :
    readCells ((cells.map u64le).flatten) = cells := by
  induction cells with
  | nil => rfl
  | cons c rest ih =>
      have hc : c < 2 ^ 64 := h c (List.mem_cons_self c rest)
      have hrest : ∀ x ∈ rest, x < 2 ^ 64 := fun x hx => h x (List.mem_cons_of_mem c hx)
      simp only [List.map_cons, List.flatten_cons, u64le, List.cons_append, List.nil_append]
      rw [readCells]
      rw [leVal8_u64le c hc, ih hrest]

theorem flatten_map_u64le_length (cells : List Nat) :
    ((cells.map u64le).flatten).length = 8 * cells.length := by
  induction cells with
  | nil => rfl
  | cons c rest ih =>
      simp only [List.map_cons, List.flatten_cons, List.length_append, u64le_length, ih,
        List.length_cons]
      ring

theorem map_getD_range {α : Type} (l : List α) (d : α) :
    (List.range l.length).map (fun i => l.getD i d) = l := by
  induction l with
  | nil => rfl
  | cons a t ih =>
      rw [List.length_cons, List.range_succ_eq_map, List.map_cons, List.map_map]
      have h2 : (List.range t.length).map ((fun i => (a :: t).getD i d) ∘ Nat.succ)
          = (List.range t.length).map (fun i => t.getD i d) := by
        apply List.map_congr_left
        intro i _
        rfl
      rw [h2, ih]
      rfl

theorem iter_values (g : Grid) (hlen : g.data.length = g.width * g.height) :
    g.iter.map (fun t => t.2.2) = g.data := by
  unfold Grid.iter
  rw [List.map_map, ← hlen]
  have : ((fun (t : Nat × Nat × Nat) => t.2.2) ∘
      fun i => (i % g.width, i / g.width, g.data.getD i 0)) = fun i => g.data.getD i 0 := rfl
  rw [this, map_getD_range]

/-- C1: for every well-formed grid (row-major dense data, 64-bit cells,
u32-representable dimensions), decoding the encoding reproduces the grid
exactly — same width, same height, every cell bit-for-bit equal. -/
theorem decode_encode (g : Grid) (hwf : g.WF)
    (hw : g.width < 2 ^ 32) (hh : g.height < 2 ^ 32) :
    decode (encode g) = .ok g := by
  obtain ⟨hlen, hcells⟩ := hwf
  have htag : leVal4 (formatTag % 256) (formatTag / 256 % 256)
      (formatTag / 256 ^ 2 % 256) (formatTag / 256 ^ 3 % 256) = formatTag :=
    leVal4_u32le formatTag (by norm_num [formatTag])
  have hwv := leVal4_u32le g.width hw
  have hhv := leVal4_u32le g.height hh
  show decode (u32le formatTag ++ u32le g.width ++ u32le g.height
      ++ (g.data.map u64le).flatten) = .ok g
  simp only [u32le, List.cons_append, List.nil_append]
  rw [decode]
  rw [htag, hwv, hhv]
  rw [if_neg (by simp), flatten_map_u64le_length, hlen]
  rw [if_neg (by simp)]
  rw [readCells_flatten g.data hcells]

/-- C1 witness: round trip at a concrete 2x2 grid. -/
theorem decode_encode_witness :
    (Grid.mk 2 2 [1, 2, 3, 4]).WF
    ∧ decode (encode (Grid.mk 2 2 [1, 2, 3, 4])) = .ok (Grid.mk 2 2 [1, 2, 3, 4]) := by
  refine ⟨⟨rfl, by decide⟩, ?_⟩
  exact decode_encode (Grid.mk 2 2 [1, 2, 3, 4]) ⟨rfl, by decide⟩ (by norm_num) (by norm_num)

/-- C5: decode fails with CorruptArtifact on empty input, on any input whose
format tag differs from the expected constant, and on any input whose length
after the header is not exactly 8*width*height for the declared width and
height; it never succeeds on such inputs. -/
theorem decode_corrupt :
    decode [] = .error .CorruptArtifact
    ∧ (∀ t0 t1 t2 t3 w0 w1 w2 w3 h0 h1 h2 h3 rest,
        leVal4 t0 t1 t2 t3 ≠ formatTag →
        decode (t0 :: t1 :: t2 :: t3 :: w0 :: w1 :: w2 :: w3 :: h0 :: h1 :: h2 :: h3 :: rest)
          = .error .CorruptArtifact)
    ∧ (∀ t0 t1 t2 t3 w0 w1 w2 w3 h0 h1 h2 h3 rest,
        rest.length ≠ 8 * (leVal4 w0 w1 w2 w3 * leVal4 h0 h1 h2 h3) →
        decode (t0 :: t1 :: t2 :: t3 :: w0 :: w1 :: w2 :: w3 :: h0 :: h1 :: h2 :: h3 :: rest)
          = .error .CorruptArtifact) := by
  refine ⟨rfl, ?_, ?_⟩
  · intro t0 t1 t2 t3 w0 w1 w2 w3 h0 h1 h2 h3 rest htag
    rw [decode, if_pos htag]
  · intro t0 t1 t2 t3 w0 w1 w2 w3 h0 h1 h2 h3 rest hlen
    rw [decode]
    by_cases htag : leVal4 t0 t1 t2 t3 ≠ formatTag
    · rw [if_pos htag]
    · rw [if_neg htag, if_pos hlen]

/-- C5 witness: concrete corrupt inputs (empty; wrong tag; wrong cell-area
length) are all rejected. -/
theorem decode_corrupt_witness :
    decode [] = .error .CorruptArtifact
    ∧ decode [9, 9, 9, 9, 1, 0, 0, 0, 1, 0, 0, 0] = .error .CorruptArtifact
    ∧ decode (u32le formatTag ++ [1, 0, 0, 0, 1, 0, 0, 0, 5]) = .error .CorruptArtifact := by
  refine ⟨decode_corrupt.1, ?_, ?_⟩
  · exact decode_corrupt.2.1 9 9 9 9 1 0 0 0 1 0 0 0 [] (by decide)
  · exact decode_corrupt.2.2 (formatTag % 256) (formatTag / 256 % 256)
      (formatTag / 256 ^ 2 % 256) (formatTag / 256 ^ 3 % 256) 1 0 0 0 1 0 0 0 [5] (by decide)

/-- C7: grid iteration is a finite sequence fully determined by the grid
(deterministic across traversals), its order is row-major — on the 2x2 grid
with values [1,2,3,4] it yields (0,0,1),(1,0,2),(0,1,3),(1,1,4) — and it is
consistent with the codec's on-wire cell order: the cell section of an
encoded grid is exactly the iteration's values, in iteration order. -/
theorem grid_iter_row_major :
    (∀ g g' : Grid, g = g' → g.iter = g'.iter)
    ∧ (Grid.mk 2 2 [1, 2, 3, 4]).iter = [(0, 0, 1), (1, 0, 2), (0, 1, 3), (1, 1, 4)]
    ∧ (∀ g : Grid, g.data.length = g.width * g.height →
        encode g = u32le formatTag ++ u32le g.width ++ u32le g.height
          ++ ((g.iter.map (fun t => t.2.2)).map u64le).flatten) := by
  refine ⟨fun g g' h => h ▸ rfl, by decide, ?_⟩
  intro g hlen
  rw [encode, iter_values g hlen]

/-- C7 witness: the codec-consistency clause at the concrete 2x2 grid. -/
theorem grid_iter_row_major_witness :
    (Grid.mk 2 2 [1, 2, 3, 4]).data.length = 2 * 2
    ∧ encode (Grid.mk 2 2 [1, 2, 3, 4])
      = u32le formatTag ++ u32le 2 ++ u32le 2
        ++ (((Grid.mk 2 2 [1, 2, 3, 4]).iter.map (fun t => t.2.2)).map u64le).flatten :=
  ⟨rfl, grid_iter_row_major.2.2 (Grid.mk 2 2 [1, 2, 3, 4]) rfl⟩

/-! ## The in-memory virtual filesystem.

Modelled from the spec: the DirectoryTree (spec section 3) is a recursive node
structure; a directory owns a name-to-subdirectory mapping and a
name-to-file-entry mapping (a file entry owns its byte buffer).  Mappings are
association lists keyed by segment name (keys unique; lookup by name).
Operations are keyed by a PathKey, here its segment sequence. -/

/-- Association-list lookup by key. -/
def assocGet {α : Type} : List (String × α) → String → Option α
  | [], _ => none
  | (k', v) :: rest, k => if k' = k then some v else assocGet rest k

/-- Association-list insert-or-replace. -/
def assocSet {α : Type} : List (String × α) → String → α → List (String × α)
  | [], k, v => [(k, v)]
  | (k', v') :: rest, k, v =>
      if k' = k then (k, v) :: rest else (k', v') :: assocSet rest k v

/-- Association-list removal of a key. -/
def assocRemove {α : Type} : List (String × α) → String → List (String × α)
  | [], _ => []
  | (k', v') :: rest, k => if k' = k then rest else (k', v') :: assocRemove rest k

/-- A directory node: subdirectories and files, each addressed by name. -/
inductive Dir where
  | node (subdirs : List (String × Dir)) (files : List (String × List Byte))

/-- What a path resolves to: a directory or a file (with its content). -/
inductive Entry where
  | dir (d : Dir)
  | file (content : List Byte)

/-- Modelled from the spec: path resolution (spec section 4.3) walks the
segment sequence from the root, descending through directories; a segment
that names a subdirectory resolves to it, a final segment that names a file
entry resolves to the file, anything else resolves to nothing. -/
def resolve : Dir → List String → Option Entry
  | d, [] => some (.dir d)
  | .node subs files, s :: rest =>
      match assocGet subs s with
      | some c => resolve c rest
      | none =>
          match rest, assocGet files s with
          | [], some f => some (.file f)
          | _, _ => none

/-- `exists` of the capability set: the path resolves to something. -/
def existsAt (d : Dir) (p : List String) : Bool :=
  (resolve d p).isSome

/-- The path resolves to a directory. -/
def isDirAt (d : Dir) (p : List String) : Bool :=
  match resolve d p with
  | some (.dir _) => true
  | _ => false

/-- The path resolves to a file. -/
def isFileAt (d : Dir) (p : List String) : Bool :=
  match resolve d p with
  | some (.file _) => true
  | _ => false

/-- Modelled from the spec: `create_dir_all` (spec section 4.2) creates every
missing directory along the path, is idempotent, and fails with
`PathCollision` when a walked segment already exists as a file. -/
def createDirAll : Dir → List String → Except FsError Dir
  | d, [] => .ok d
  | .node subs files, s :: rest =>
      if (assocGet files s).isSome then .error .PathCollision
      else
        match assocGet subs s with
        | some c =>
            match createDirAll c rest with
            | .ok c' => .ok (.node (assocSet subs s c') files)
            | .error e => .error e
        | none =>
            match createDirAll (.node [] []) rest with
            | .ok c' => .ok (.node (assocSet subs s c') files)
            | .error e => .error e

/-- Modelled from the spec: `create` (spec section 4.2) creates or truncates
a file at the path, creating missing parent directories implicitly, and fails
with `PathCollision` when the path already exists as a directory (or a walked
parent segment exists as a file).  The scoped write-then-commit stream is
collapsed to its committed effect: the full content is installed at close. -/
def createFile : Dir → List String → List Byte → Except FsError Dir
  | _, [], _ => .error .PathCollision
  | .node subs files, s :: rest, content =>
      match rest with
      | [] =>
          if (assocGet subs s).isSome then .error .PathCollision
          else .ok (.node subs (assocSet files s content))
      | _ =>
          match assocGet subs s with
          | some c =>
              match createFile c rest content with
              | .ok c' => .ok (.node (assocSet subs s c') files)
              | .error e => .error e
          | none =>
              if (assocGet files s).isSome then .error .PathCollision
              else
                match createFile (.node [] []) rest content with
                | .ok c' => .ok (.node (assocSet subs s c') files)
                | .error e => .error e

/-- Modelled from the spec: `remove_file` (spec sections 4.2, 4.3) removes an
existing file; a path that resolves to a directory is rejected with
`NotAFile`, a path that resolves to nothing fails with `NotFound`. -/
def removeFile : Dir → List String → Except FsError Dir
  | _, [] => .error .NotAFile
  | .node subs files, s :: rest =>
      match assocGet subs s with
      | some c =>
          match rest with
          | [] => .error .NotAFile
          | _ =>
              match removeFile c rest with
              | .ok c' => .ok (.node (assocSet subs s c') files)
              | .error e => .error e
      | none =>
          match rest, assocGet files s with
          | [], some _ => .ok (.node subs (assocRemove files s))
          | [], none => .error .NotFound
          | _ :: _, _ => .error .NotFound

/-- Modelled from the spec: `load_from_disk` (spec section 4.6) reads the
entire real file into memory and writes it through `create`; the real read
is represented by its outcome (an io error code, or the bytes read).  A read
failure is reported as `ImportIoError`. -/
def loadFromDisk (readResult : Except Nat (List Byte)) (target : List String)
    (d : Dir) : Except FsError Dir :=
  match readResult with
  | .error _ => .error .ImportIoError
  | .ok bytes => createFile d target bytes

/-- The state left behind by a mutating operation: its result tree on
success, the untouched prior tree on failure (operations are all-or-nothing,
spec section 7). -/
def commit (op : Dir → Except FsError Dir) (d : Dir) : Dir :=
  match op d with
  | .ok d' => d'
  | .error _ => d

/-- `q` is a prefix of `p` (as segment sequences). -/
def IsPre {α : Type} (q p : List α) : Prop := ∃ t, q ++ t = p

/-- No walked segment of the path exists as a file (the successful
`create_dir_all` walk). -/
def noFileOnWalk : Dir → List String → Bool
  | _, [] => true
  | .node subs files, s :: rest =>
      (assocGet files s).isNone &&
        (match assocGet subs s with
         | some c => noFileOnWalk c rest
         | none => true)

/-- Every segment of the path exists as a directory. -/
def allDirsAlong : Dir → List String → Bool
  | _, [] => true
  | .node subs _, s :: rest =>
      match assocGet subs s with
      | some c => allDirsAlong c rest
      | none => false

/-- Along the walked path, no name is simultaneously a subdirectory and a
file of the same parent (the invariant every operation preserves; raw trees
violating it have no defined resolution semantics). -/
def consistentAlong : Dir → List String → Bool
  | _, [] => true
  | .node subs files, s :: rest =>
      (!((assocGet subs s).isSome && (assocGet files s).isSome)) &&
        (match assocGet subs s with
         | some c => consistentAlong c rest
         | none => true)

/-! ### Association-list lemmas -/

theorem assocGet_set_self {α : Type} (l : List (String × α)) (k : String) (v : α) :
    assocGet (assocSet l k v) k = some v := by
  induction l with
  | nil => simp [assocGet, assocSet]
  | cons h t ih =>
      obtain ⟨k', v'⟩ := h
      by_cases hk : k' = k
      · simp [assocGet, assocSet, hk]
      · simp [assocGet, assocSet, hk, ih]

theorem assocSet_get_self {α : Type} (l : List (String × α)) (k : String) (v : α)
    (h : assocGet l k = some v) : assocSet l k v = l := by
  induction l with
  | nil => simp [assocGet] at h
  | cons hd t ih =>
      obtain ⟨k', v'⟩ := hd
      by_cases hk : k' = k
      · subst hk
        have hv : v' = v := by simpa [assocGet] using h
        subst hv
        simp [assocSet]
      · simp only [assocGet, if_neg hk] at h
        simp [assocSet, hk, ih h]

/-! ### C6: remove_file error contract -/

/-- C6: `remove_file` fails with `NotAFile` when the path resolves to a
directory, fails with `NotFound` when the path resolves to nothing, and
succeeds exactly when the path resolves to an existing file. -/
theorem remove_file_spec (fs : Dir) (p : List String) :
    (isDirAt fs p = true → removeFile fs p = .error .NotAFile)
    ∧ (resolve fs p = none → removeFile fs p = .error .NotFound)
    ∧ ((∃ fs', removeFile fs p = .ok fs') ↔ isFileAt fs p = true) := by
  induction p generalizing fs with
  | nil =>
      cases fs with
      | node subs files => simp [resolve, removeFile, isDirAt, isFileAt]
  | cons s rest ih =>
      cases fs with
      | node subs files =>
          cases hsub : assocGet subs s with
          | some c =>
              cases rest with
              | nil =>
                  simp [resolve, removeFile, isDirAt, isFileAt, hsub]
              | cons r rs =>
                  have ihc := ih c
                  simp only [resolve, removeFile, isDirAt, isFileAt, hsub] at ihc ⊢
                  cases hrm : removeFile c (r :: rs) with
                  | ok c' =>
                      simp only [hrm] at ihc ⊢
                      refine ⟨?_, ?_, ?_⟩
                      · intro hdir
                        exact absurd (ihc.1 hdir) (by simp)
                      · intro hres
                        exact absurd (ihc.2.1 hres) (by simp)
                      · simp only [Except.ok.injEq]
                        constructor
                        · intro _
                          exact ihc.2.2.mp ⟨c', rfl⟩
                        · intro _
                          exact ⟨_, rfl⟩
                  | error e =>
                      simp only [hrm] at ihc ⊢
                      refine ⟨?_, ?_, ?_⟩
                      · intro hdir
                        have := ihc.1 hdir
                        simp only [Except.error.injEq] at this
                        simp [this]
                      · intro hres
                        have := ihc.2.1 hres
                        simp only [Except.error.injEq] at this
                        simp [this]
                      · constructor
                        · intro ⟨fs', hfs'⟩
                          simp at hfs'
                        · intro hfile
                          exact absurd (ihc.2.2.mpr hfile) (by simp)
          | none =>
              cases rest with
              | nil =>
                  cases hfil : assocGet files s with
                  | some f =>
                      simp [resolve, removeFile, isDirAt, isFileAt, hsub, hfil]
                  | none =>
                      simp [resolve, removeFile, isDirAt, isFileAt, hsub, hfil]
              | cons r rs =>
                  simp [resolve, removeFile, isDirAt, isFileAt, hsub]

/-- C6 witness: a concrete tree with a directory `d` and a file `f.txt`:
removing `d` fails with `NotAFile`, removing missing `x` fails with
`NotFound`, removing `f.txt` succeeds. -/
theorem remove_file_spec_witness :
    isDirAt (.node [("d", .node [] [])] [("f.txt", [1])]) ["d"] = true
    ∧ removeFile (.node [("d", .node [] [])] [("f.txt", [1])]) ["d"] = .error .NotAFile
    ∧ resolve (.node [("d", .node [] [])] [("f.txt", [1])]) ["x"] = none
    ∧ removeFile (.node [("d", .node [] [])] [("f.txt", [1])]) ["x"] = .error .NotFound
    ∧ isFileAt (.node [("d", .node [] [])] [("f.txt", [1])]) ["f.txt"] = true
    ∧ ∃ fs', removeFile (.node [("d", .node [] [])] [("f.txt", [1])]) ["f.txt"] = .ok fs' := by
  refine ⟨rfl, ?_, rfl, ?_, rfl, ?_⟩
  · exact (remove_file_spec (.node [("d", .node [] [])] [("f.txt", [1])]) ["d"]).1 rfl
  · exact (remove_file_spec (.node [("d", .node [] [])] [("f.txt", [1])]) ["x"]).2.1 rfl
  · exact (remove_file_spec (.node [("d", .node [] [])] [("f.txt", [1])]) ["f.txt"]).2.2.mpr rfl

/-! ### C8: failed operations leave the filesystem unchanged -/

/-- C8: every failing mutating operation over the tree is all-or-nothing:
when it reports an error the committed filesystem state is exactly the prior
tree; in particular `load_from_disk` reports `ImportIoError` on any real-disk
read failure and commits no change to the target filesystem. -/
theorem error_atomicity :
    (∀ (op : Dir → Except FsError Dir) (d : Dir),
        (∃ e, op d = .error e) → commit op d = d)
    ∧ (∀ (ioErr : Nat) (target : List String) (d : Dir),
        loadFromDisk (.error ioErr) target d = .error .ImportIoError
        ∧ commit (loadFromDisk (.error ioErr) target) d = d) := by
  constructor
  · intro op d ⟨e, he⟩
    unfold commit
    rw [he]
  · intro ioErr target d
    exact ⟨rfl, rfl⟩

/-- C8 witness: a failing `remove_file` commits no change, and a concrete
failed import reports `ImportIoError` and commits no change. -/
theorem error_atomicity_witness :
    (∃ e, removeFile (.node [] []) ["x"] = .error e)
    ∧ commit (fun d => removeFile d ["x"]) (.node [] []) = .node [] []
    ∧ loadFromDisk (.error 3) ["t.laz"] (.node [] []) = .error .ImportIoError
    ∧ commit (loadFromDisk (.error 3) ["t.laz"]) (.node [] []) = .node [] [] := by
  refine ⟨⟨.NotFound, rfl⟩, ?_, ?_, ?_⟩
  · exact error_atomicity.1 (fun d => removeFile d ["x"]) (.node [] []) ⟨.NotFound, rfl⟩
  · exact (error_atomicity.2 3 ["t.laz"] (.node [] [])).1
  · exact (error_atomicity.2 3 ["t.laz"] (.node [] [])).2

/-! ## Dropped-file handling (embedded from `src/app.rs`, lines 233-257).

The GUI examines each dropped file: if the drop carries in-memory bytes they
are written through `create` at the drop's reported name; otherwise, if it
carries a real-disk path, the file is imported to a target made of the path's
final file-name component alone (or the fixed name `dropped_file.laz` when
the path has no file-name component); otherwise nothing happens.  The code
observes the real-disk path only through `file_name()` and the disk read, so
a disk path is represented by those two observations. -/

/-- A real-disk path as the handler observes it: its final file-name
component (if any) and the outcome of reading it. -/
structure DiskFile where
  fileName : Option String
  readResult : Except Nat (List Byte)

/-- A dropped file as delivered to the GUI: a reported name, optional
in-memory bytes, optional real-disk path. -/
structure DroppedFile where
  name : String
  bytes : Option (List Byte)
  path : Option DiskFile

/-- A textual name addresses the tree by its slash-separated segments. -/
def pathOfName (s : String) : List String := s.splitOn "/"

/-- Embedded from `src/app.rs` (`update`, dropped-file loop): dispatch of one
dropped file into the virtual filesystem. -/
def handleDroppedFile (fs : Dir) (f : DroppedFile) : Except FsError Dir :=
  match f.bytes with
  | some bs => createFile fs (pathOfName f.name) bs
  | none =>
      match f.path with
      | some p =>
          let target :=
            match p.fileName with
            | some n => [n]
            | none => ["dropped_file.laz"]
          loadFromDisk p.readResult target fs
      | none => .ok fs

/-- C9: a drop carrying in-memory bytes is written through `create` at
exactly the drop's reported name; a drop carrying a real-disk path is
imported at a root-level single-segment target — the path's final file-name
component, or the fixed fallback `dropped_file.laz` when there is none — so
the source directory structure is never reproduced in the tree. -/
theorem dropped_file_handling (fs : Dir) (f : DroppedFile) :
    (∀ bs, f.bytes = some bs →
        handleDroppedFile fs f = createFile fs (pathOfName f.name) bs)
    ∧ (∀ p, f.bytes = none → f.path = some p →
        handleDroppedFile fs f
          = loadFromDisk p.readResult [p.fileName.getD "dropped_file.laz"] fs)
    ∧ (f.bytes = none → f.path = none → handleDroppedFile fs f = .ok fs) := by
  refine ⟨?_, ?_, ?_⟩
  · intro bs hb
    unfold handleDroppedFile
    rw [hb]
  · intro p hb hp
    obtain ⟨pfn, prr⟩ := p
    unfold handleDroppedFile
    rw [hb, hp]
    cases pfn with
    | some n => rfl
    | none => rfl
  · intro hb hp
    unfold handleDroppedFile
    rw [hb, hp]

/-- C9 witness: concrete drops — one with bytes, one with a disk path having
a file name, one with a disk path having none. -/
theorem dropped_file_handling_witness :
    handleDroppedFile (.node [] []) ⟨"a/b.laz", some [7], none⟩
      = createFile (.node [] []) (pathOfName "a/b.laz") [7]
    ∧ handleDroppedFile (.node [] []) ⟨"ignored", none, some ⟨some "tile.laz", .ok [1]⟩⟩
      = loadFromDisk (.ok [1]) ["tile.laz"] (.node [] [])
    ∧ handleDroppedFile (.node [] []) ⟨"ignored", none, some ⟨none, .ok [1]⟩⟩
      = loadFromDisk (.ok [1]) ["dropped_file.laz"] (.node [] []) := by
  refine ⟨?_, ?_, ?_⟩
  · exact (dropped_file_handling (.node [] []) ⟨"a/b.laz", some [7], none⟩).1 [7] rfl
  · exact (dropped_file_handling (.node [] [])
      ⟨"ignored", none, some ⟨some "tile.laz", .ok [1]⟩⟩).2.1 ⟨some "tile.laz", .ok [1]⟩ rfl rfl
  · exact (dropped_file_handling (.node [] [])
      ⟨"ignored", none, some ⟨none, .ok [1]⟩⟩).2.1 ⟨none, .ok [1]⟩ rfl rfl

/-! ### C3: create_dir_all lemmas -/

theorem noFileOnWalk_empty (p : List String) : noFileOnWalk (.node [] []) p = true := by
  cases p <;> rfl

theorem createDirAll_ok_of_noFile (p : List String) (d : Dir)
    (h : noFileOnWalk d p = true) :
    ∃ d', createDirAll d p = .ok d'
      ∧ allDirsAlong d' p = true ∧ noFileOnWalk d' p = true := by
  induction p generalizing d with
  | nil => cases d with | node subs files => exact ⟨.node subs files, rfl, rfl, rfl⟩
  | cons s rest ih =>
      cases d with
      | node subs files =>
          simp only [noFileOnWalk, Bool.and_eq_true] at h
          obtain ⟨hfil, hrest⟩ := h
          cases hsub : assocGet subs s with
          | some c =>
              rw [hsub] at hrest
              obtain ⟨c', hok, hdirs, hnf⟩ := ih c hrest
              refine ⟨.node (assocSet subs s c') files, ?_, ?_, ?_⟩
              · simp only [createDirAll, hsub, hok]
                rw [if_neg (by simp [Option.isNone_iff_eq_none.mp hfil])]
              · simp only [allDirsAlong, assocGet_set_self]
                exact hdirs
              · simp only [noFileOnWalk, Bool.and_eq_true, assocGet_set_self]
                exact ⟨hfil, hnf⟩
          | none =>
              obtain ⟨c', hok, hdirs, hnf⟩ := ih (.node [] []) (noFileOnWalk_empty rest)
              refine ⟨.node (assocSet subs s c') files, ?_, ?_, ?_⟩
              · simp only [createDirAll, hsub, hok]
                rw [if_neg (by simp [Option.isNone_iff_eq_none.mp hfil])]
              · simp only [allDirsAlong, assocGet_set_self]
                exact hdirs
              · simp only [noFileOnWalk, Bool.and_eq_true, assocGet_set_self]
                exact ⟨hfil, hnf⟩

theorem createDirAll_collision_of_file (p : List String) (d : Dir)
    (h : noFileOnWalk d p = false) :
    createDirAll d p = .error .PathCollision := by
  induction p generalizing d with
  | nil => simp [noFileOnWalk] at h
  | cons s rest ih =>
      cases d with
      | node subs files =>
          cases hfil : assocGet files s with
          | some f =>
              simp only [createDirAll]
              rw [if_pos (by simp [hfil])]
          | none =>
              simp only [noFileOnWalk, hfil, Option.isNone_none, Bool.true_and] at h
              cases hsub : assocGet subs s with
              | some c =>
                  rw [hsub] at h
                  simp only [createDirAll, hsub, ih c h]
                  rw [if_neg (by simp [hfil])]
              | none =>
                  rw [hsub] at h
                  simp at h

theorem createDirAll_id (p : List String) (d : Dir)
    (hdirs : allDirsAlong d p = true) (hnf : noFileOnWalk d p = true) :
    createDirAll d p = .ok d := by
  induction p generalizing d with
  | nil => cases d with | node subs files => rfl
  | cons s rest ih =>
      cases d with
      | node subs files =>
          simp only [noFileOnWalk, Bool.and_eq_true] at hnf
          obtain ⟨hfil, hrest⟩ := hnf
          cases hsub : assocGet subs s with
          | some c =>
              rw [hsub] at hrest
              simp only [allDirsAlong, hsub] at hdirs
              simp only [createDirAll, hsub, ih c hdirs hrest]
              rw [if_neg (by simp [Option.isNone_iff_eq_none.mp hfil])]
              rw [assocSet_get_self subs s c hsub]
          | none =>
              simp only [allDirsAlong, hsub] at hdirs
              exact absurd hdirs (by simp)

theorem isDirAt_nil (d : Dir) : isDirAt d [] = true := by
  cases d with | node subs files => rfl

theorem isDirAt_of_allDirs (p : List String) (d : Dir)
    (h : allDirsAlong d p = true) :
    ∀ q, IsPre q p → isDirAt d q = true := by
  induction p generalizing d with
  | nil =>
      intro q hq
      obtain ⟨t, ht⟩ := hq
      have hq0 : q = [] := by
        cases q with
        | nil => rfl
        | cons a b => simp at ht
      subst hq0
      exact isDirAt_nil d
  | cons s rest ih =>
      cases d with
      | node subs files =>
          simp only [allDirsAlong] at h
          cases hsub : assocGet subs s with
          | some c =>
              rw [hsub] at h
              intro q hq
              cases q with
              | nil => exact isDirAt_nil _
              | cons q0 q' =>
                  obtain ⟨t, ht⟩ := hq
                  rw [List.cons_append] at ht
                  simp only [List.cons.injEq] at ht
                  obtain ⟨h1, h2⟩ := ht
                  subst h1
                  have hred : isDirAt (Dir.node subs files) (q0 :: q') = isDirAt c q' := by
                    simp only [isDirAt, resolve, hsub]
                  rw [hred]
                  exact ih c h q' ⟨t, h2⟩
          | none =>
              rw [hsub] at h
              simp at h

theorem noFileOnWalk_of_no_file_pre (p : List String) (d : Dir)
    (hcons : consistentAlong d p = true)
    (h : ∀ q s, IsPre (q ++ [s]) p → isFileAt d (q ++ [s]) = false) :
    noFileOnWalk d p = true := by
  induction p generalizing d with
  | nil => cases d with | node subs files => rfl
  | cons s rest ih =>
      cases d with
      | node subs files =>
          simp only [consistentAlong, Bool.and_eq_true] at hcons
          obtain ⟨hc1, hc2⟩ := hcons
          have hfil : assocGet files s = none := by
            cases hfil : assocGet files s with
            | none => rfl
            | some f =>
                cases hsub : assocGet subs s with
                | some c =>
                    rw [hsub, hfil] at hc1
                    simp at hc1
                | none =>
                    have hfa := h [] s ⟨rest, rfl⟩
                    rw [List.nil_append] at hfa
                    simp only [isFileAt, resolve, hsub, hfil] at hfa
                    exact absurd hfa (by simp)
          simp only [noFileOnWalk, hfil, Option.isNone_none, Bool.true_and]
          cases hsub : assocGet subs s with
          | some c =>
              rw [hsub] at hc2
              apply ih c hc2
              intro q s' hq
              obtain ⟨t, ht⟩ := hq
              have hpre : IsPre ((s :: q) ++ [s']) (s :: rest) := by
                refine ⟨t, ?_⟩
                simp only [List.cons_append, List.append_assoc] at ht ⊢
                rw [ht]
              have hfa := h (s :: q) s' hpre
              have hred : isFileAt (Dir.node subs files) ((s :: q) ++ [s'])
                  = isFileAt c (q ++ [s']) := by
                rw [List.cons_append]
                simp only [isFileAt, resolve, hsub]
              rw [hred] at hfa
              exact hfa
          | none => rfl

theorem noFileOnWalk_false_of_file_pre (p : List String) (q : List String) (s' : String)
    (d : Dir) (hpre : IsPre (q ++ [s']) p) (hfile : isFileAt d (q ++ [s']) = true) :
    noFileOnWalk d p = false := by
  induction p generalizing d q with
  | nil =>
      obtain ⟨t, ht⟩ := hpre
      simp at ht
  | cons s rest ih =>
      cases d with
      | node subs files =>
          cases q with
          | nil =>
              obtain ⟨t, ht⟩ := hpre
              simp only [List.nil_append, List.cons_append] at ht
              simp only [List.cons.injEq] at ht
              obtain ⟨h1, h2⟩ := ht
              subst h1
              rw [List.nil_append] at hfile
              cases hsub : assocGet subs s' with
              | some c =>
                  cases c with
                  | node cs cf =>
                      simp only [isFileAt, resolve, hsub] at hfile
                      exact absurd hfile (by simp)
              | none =>
                  cases hfil : assocGet files s' with
                  | some f => simp [noFileOnWalk, hfil]
                  | none =>
                      simp only [isFileAt, resolve, hsub, hfil] at hfile
                      exact absurd hfile (by simp)
          | cons q0 q'' =>
              obtain ⟨t, ht⟩ := hpre
              simp only [List.cons_append, List.cons.injEq] at ht
              obtain ⟨h1, h2⟩ := ht
              subst h1
              rw [List.cons_append] at hfile
              cases hsub : assocGet subs q0 with
              | some c =>
                  have hred : isFileAt (Dir.node subs files) (q0 :: (q'' ++ [s']))
                      = isFileAt c (q'' ++ [s']) := by
                    simp only [isFileAt, resolve, hsub]
                  rw [hred] at hfile
                  have hr := ih q'' c ⟨t, h2⟩ hfile
                  simp [noFileOnWalk, hsub, hr]
              | none =>
                  cases q'' with
                  | nil =>
                      simp only [List.nil_append] at hfile
                      simp only [isFileAt, resolve, hsub] at hfile
                      exact absurd hfile (by simp)
                  | cons a b =>
                      simp only [List.cons_append] at hfile
                      simp only [isFileAt, resolve, hsub] at hfile
                      exact absurd hfile (by simp)

theorem isFileAt_empty (p : List String) : isFileAt (.node [] []) p = false := by
  match p with
  | [] => rfl
  | [s] => rfl
  | s :: r :: rs => rfl

/-- C3: on a tree whose walked names are unambiguous, if no nonempty prefix
of the path exists as a file then `create_dir_all` succeeds, afterwards every
prefix of the path exists and resolves to a directory, and calling it again
on the result succeeds (idempotent); if some prefix of the path already
exists as a file, it fails with `PathCollision`. -/
theorem create_dir_all_spec (fs : Dir) (p : List String)
    (hcons : consistentAlong fs p = true) :
    ((∀ q s, IsPre (q ++ [s]) p → isFileAt fs (q ++ [s]) = false) →
      ∃ fs', createDirAll fs p = .ok fs'
        ∧ (∀ q, IsPre q p → isDirAt fs' q = true)
        ∧ createDirAll fs' p = .ok fs')
    ∧ (∀ q s, IsPre (q ++ [s]) p → isFileAt fs (q ++ [s]) = true →
      createDirAll fs p = .error .PathCollision) := by
  constructor
  · intro hnof
    have hnw : noFileOnWalk fs p = true := noFileOnWalk_of_no_file_pre p fs hcons hnof
    obtain ⟨fs', hok, hdirs, hnf⟩ := createDirAll_ok_of_noFile p fs hnw
    exact ⟨fs', hok, isDirAt_of_allDirs p fs' hdirs, createDirAll_id p fs' hdirs hnf⟩
  · intro q s hpre hfile
    exact createDirAll_collision_of_file p fs
      (noFileOnWalk_false_of_file_pre p q s fs hpre hfile)

/-- C3 witness: creating `a/b/c` in an empty tree succeeds, every prefix then
resolves to a directory and the call is idempotent; creating `a/b` where `a`
is a file fails with `PathCollision`. -/
theorem create_dir_all_spec_witness :
    consistentAlong (.node [] []) ["a", "b", "c"] = true
    ∧ (∃ fs', createDirAll (.node [] []) ["a", "b", "c"] = .ok fs'
        ∧ (∀ q, IsPre q ["a", "b", "c"] → isDirAt fs' q = true)
        ∧ createDirAll fs' ["a", "b", "c"] = .ok fs')
    ∧ consistentAlong (.node [] [("a", [7])]) ["a", "b"] = true
    ∧ IsPre ([] ++ ["a"]) ["a", "b"]
    ∧ isFileAt (.node [] [("a", [7])]) ([] ++ ["a"]) = true
    ∧ createDirAll (.node [] [("a", [7])]) ["a", "b"] = .error .PathCollision := by
  refine ⟨rfl, ?_, rfl, ⟨["b"], rfl⟩, rfl, ?_⟩
  · exact (create_dir_all_spec (.node [] []) ["a", "b", "c"] rfl).1
      (fun q s _ => isFileAt_empty (q ++ [s]))
  · exact (create_dir_all_spec (.node [] [("a", [7])]) ["a", "b"] rfl).2
      [] "a" ⟨["b"], rfl⟩ rfl

/-! ## PathKey parsing.

Modelled from the spec: a PathKey (spec sections 3, 4.1) is an ordered
sequence of non-empty segment strings with no leading/trailing separators and
no `.`/`..` segments; `parse` splits the text on the separator and rejects
the text with `InvalidPath` when any segment is empty, `.` or `..`; rendering
joins the segments with the separator.  Text is represented as a character
list. -/

/-- Split a character list on the `/` separator (text-level segments). -/
def splitSlash : List Char → List (List Char)
  | [] => [[]]
  | c :: rest =>
      if c = '/' then [] :: splitSlash rest
      else
        match splitSlash rest with
        | [] => [[c]]
        | seg :: segs => (c :: seg) :: segs

/-- Join segments with the `/` separator. -/
def joinSlash : List (List Char) → List Char
  | [] => []
  | [seg] => seg
  | seg :: segs => seg ++ '/' :: joinSlash segs

/-- A valid PathKey segment: non-empty and neither `.` nor `..`. -/
def segOk (seg : List Char) : Bool :=
  if seg = [] ∨ seg = ['.'] ∨ seg = ['.', '.'] then false else true

/-- Modelled from the spec: `PathKey::parse` (spec section 4.1). -/
def parsePath (text : List Char) : Except FsError (List (List Char)) :=
  if (splitSlash text).all segOk then .ok (splitSlash text) else .error .InvalidPath

/-- Modelled from the spec: rendering a PathKey back to text (`to_string`). -/
def pathToString (segs : List (List Char)) : List Char := joinSlash segs

theorem splitSlash_ne_nil (l : List Char) : splitSlash l ≠ [] := by
  cases l with
  | nil => simp [splitSlash]
  | cons c rest =>
      simp only [splitSlash]
      by_cases hc : c = '/'
      · simp [hc]
      · rw [if_neg hc]
        cases splitSlash rest with
        | nil => simp
        | cons a as => simp

theorem joinSlash_splitSlash (l : List Char) : joinSlash (splitSlash l) = l := by
  induction l with
  | nil => rfl
  | cons c rest ih =>
      by_cases hc : c = '/'
      · subst hc
        simp only [splitSlash, if_pos rfl]
        cases hsp : splitSlash rest with
        | nil => exact absurd hsp (splitSlash_ne_nil rest)
        | cons a as =>
            rw [hsp] at ih
            show joinSlash ([] :: a :: as) = '/' :: rest
            show [] ++ '/' :: joinSlash (a :: as) = '/' :: rest
            rw [List.nil_append, ih]
      · simp only [splitSlash, if_neg hc]
        cases hsp : splitSlash rest with
        | nil => exact absurd hsp (splitSlash_ne_nil rest)
        | cons a as =>
            rw [hsp] at ih
            cases as with
            | nil =>
                show joinSlash [c :: a] = c :: rest
                show c :: a = c :: rest
                rw [show joinSlash [a] = a from rfl] at ih
                rw [ih]
            | cons b bs =>
                show joinSlash ((c :: a) :: b :: bs) = c :: rest
                show (c :: a) ++ '/' :: joinSlash (b :: bs) = c :: rest
                rw [List.cons_append]
                have : a ++ '/' :: joinSlash (b :: bs) = joinSlash (a :: b :: bs) := rfl
                rw [this, ih]

/-- C4: for path text all of whose slash-separated segments are non-empty
and none of which is `.` or `..`, `parse` succeeds and rendering the parsed
PathKey yields the text back; for text containing an empty, `.` or `..`
segment, `parse` fails with `InvalidPath`. -/
theorem pathkey_parse_roundtrip (text : List Char) :
    ((∀ seg ∈ splitSlash text, seg ≠ [] ∧ seg ≠ ['.'] ∧ seg ≠ ['.', '.']) →
      parsePath text = .ok (splitSlash text)
        ∧ pathToString (splitSlash text) = text)
    ∧ ((∃ seg ∈ splitSlash text, seg = [] ∨ seg = ['.'] ∨ seg = ['.', '.']) →
      parsePath text = .error .InvalidPath) := by
  constructor
  · intro hok
    have hall : (splitSlash text).all segOk = true := by
      rw [List.all_eq_true]
      intro seg hseg
      obtain ⟨h1, h2, h3⟩ := hok seg hseg
      simp [segOk, h1, h2, h3]
    exact ⟨by rw [parsePath, if_pos hall], joinSlash_splitSlash text⟩
  · intro hbad
    obtain ⟨seg, hseg, hb⟩ := hbad
    have hall : (splitSlash text).all segOk = false := by
      rw [List.all_eq_false]
      refine ⟨seg, hseg, ?_⟩
      simp [segOk, hb]
    rw [parsePath, hall]
    rfl

/-- C4 witness: `a/b` parses and round-trips; `a//b` (empty segment) and
`./a` (dot segment) are rejected with `InvalidPath`. -/
theorem pathkey_parse_roundtrip_witness :
    parsePath ['a', '/', 'b'] = .ok (splitSlash ['a', '/', 'b'])
    ∧ pathToString (splitSlash ['a', '/', 'b']) = ['a', '/', 'b']
    ∧ parsePath ['a', '/', '/', 'b'] = .error .InvalidPath
    ∧ parsePath ['.', '/', 'a'] = .error .InvalidPath := by
  refine ⟨?_, ?_, ?_, ?_⟩
  · exact ((pathkey_parse_roundtrip ['a', '/', 'b']).1 (by decide)).1
  · exact ((pathkey_parse_roundtrip ['a', '/', 'b']).1 (by decide)).2
  · exact (pathkey_parse_roundtrip ['a', '/', '/', 'b']).2 (by decide)
  · exact (pathkey_parse_roundtrip ['.', '/', 'a']).2 (by decide)

/-! ## Heightmap preview rendering (embedded from `src/app.rs`, lines 186-205).

When a `.hmap` file is selected, the GUI scans the grid for its minimum and
maximum cell values (starting from `+inf` / `-inf`, using `f64::min` /
`f64::max`, which ignore NaN operands), then draws each iterated cell
`(x, y, v)` at image pixel `(x, height - y - 1)` with gray level
`((v - min) / (max - min) * 255.0) as u8` (the image starts all-zero).

An `f64` value is modelled as an exact rational or one of the IEEE-754
special values NaN, `+inf`, `-inf`.  The special-value rules of the
operations below and the saturating-with-NaN-to-zero `as u8` cast follow
IEEE-754 and Rust exactly.  A finite-operand result whose magnitude reaches
the round-to-nearest-even overflow threshold `(2^54 - 1) * 2^970` (the
midpoint between `f64::MAX` and `2^1024`, from which f64 rounds to an
infinity) becomes the corresponding infinity, so the finite/infinite
classification of every result is exact; results below the threshold are
kept as exact rationals (in-range rounding and subnormal underflow are not
modelled — every distinguished value of the renderer, 0, 1, 255 and the
extremes, is rounding-free in `f64` as well).  The single model zero stands
for IEEE `+0.0`. -/

inductive F where
  | fin (q : ℚ)
  | nan
  | pinf
  | ninf
  deriving DecidableEq, Repr

/-- Whether a value is finite. -/
def F.isFinite : F → Bool
  | .fin _ => true
  | _ => false

/-- `f64::MAX`, the largest finite double: `(2^53 - 1) * 2^971`. -/
def maxFinite : ℚ := (2 ^ 53 - 1) * 2 ^ 971

/-- The overflow threshold of round-to-nearest-even: an exact result whose
magnitude reaches `(2^54 - 1) * 2^970` — the midpoint between `f64::MAX`
and `2^1024` — rounds to an infinity. -/
def ovfl : ℚ := (2 ^ 54 - 1) * 2 ^ 970

/-- An exact finite result as the program sees it: overflow to an infinity
at the round-to-nearest-even threshold, otherwise the exact value. -/
def F.ofRat (q : ℚ) : F :=
  if ovfl ≤ q then .pinf else if q ≤ -ovfl then .ninf else .fin q

/-- IEEE-754 subtraction on the model (finite results overflow to the
infinities at the rounding threshold). -/
def F.sub : F → F → F
  | .nan, _ => .nan
  | _, .nan => .nan
  | .fin a, .fin b => F.ofRat (a - b)
  | .fin _, .pinf => .ninf
  | .fin _, .ninf => .pinf
  | .pinf, .fin _ => .pinf
  | .pinf, .ninf => .pinf
  | .pinf, .pinf => .nan
  | .ninf, .fin _ => .ninf
  | .ninf, .pinf => .ninf
  | .ninf, .ninf => .nan

/-- IEEE-754 division on the model (the dividend-zero signs collapse to the
single model zero, treated as `+0.0`; finite results overflow to the
infinities at the rounding threshold). -/
def F.div : F → F → F
  | .nan, _ => .nan
  | _, .nan => .nan
  | .fin a, .fin b =>
      if b = 0 then (if a = 0 then .nan else if 0 < a then .pinf else .ninf)
      else F.ofRat (a / b)
  | .fin _, .pinf => .fin 0
  | .fin _, .ninf => .fin 0
  | .pinf, .fin b => if 0 ≤ b then .pinf else .ninf
  | .ninf, .fin b => if 0 ≤ b then .ninf else .pinf
  | .pinf, .pinf => .nan
  | .pinf, .ninf => .nan
  | .ninf, .pinf => .nan
  | .ninf, .ninf => .nan

/-- IEEE-754 multiplication on the model (finite results overflow to the
infinities at the rounding threshold). -/
def F.mul : F → F → F
  | .nan, _ => .nan
  | _, .nan => .nan
  | .fin a, .fin b => F.ofRat (a * b)
  | .fin a, .pinf => if a = 0 then .nan else if 0 < a then .pinf else .ninf
  | .fin a, .ninf => if a = 0 then .nan else if 0 < a then .ninf else .pinf
  | .pinf, .fin b => if b = 0 then .nan else if 0 < b then .pinf else .ninf
  | .ninf, .fin b => if b = 0 then .nan else if 0 < b then .ninf else .pinf
  | .pinf, .pinf => .pinf
  | .pinf, .ninf => .ninf
  | .ninf, .pinf => .ninf
  | .ninf, .ninf => .pinf

/-- Rust `f64::min`: the smaller value, ignoring a NaN operand. -/
def F.fmin : F → F → F
  | .nan, b => b
  | a, .nan => a
  | .fin a, .fin b => if a ≤ b then .fin a else .fin b
  | .fin a, .pinf => .fin a
  | .fin _, .ninf => .ninf
  | .pinf, .fin b => .fin b
  | .pinf, .pinf => .pinf
  | .pinf, .ninf => .ninf
  | .ninf, _ => .ninf

/-- Rust `f64::max`: the larger value, ignoring a NaN operand. -/
def F.fmax : F → F → F
  | .nan, b => b
  | a, .nan => a
  | .fin a, .fin b => if a ≤ b then .fin b else .fin a
  | .fin _, .pinf => .pinf
  | .fin a, .ninf => .fin a
  | .pinf, _ => .pinf
  | .ninf, .fin b => .fin b
  | .ninf, .pinf => .pinf
  | .ninf, .ninf => .ninf

/-- Rust saturating `as u8` cast: NaN and `-inf` map to 0, `+inf` and values
at least 255 map to 255, other finite values truncate toward zero. -/
def F.toU8 : F → Nat
  | .nan => 0
  | .ninf => 0
  | .pinf => 255
  | .fin q => if q ≤ 0 then 0 else if (255 : ℚ) ≤ q then 255 else q.floor.toNat

/-- A grid of modelled `f64` cells (the heightmap's grid), row-major. -/
structure FGrid where
  width : Nat
  height : Nat
  data : List F

/-- Row-major iteration of the heightmap grid (as `Grid.iter`). -/
def FGrid.iter (g : FGrid) : List (Nat × Nat × F) :=
  (List.range (g.width * g.height)).map
    (fun i => (i % g.width, i / g.width, g.data.getD i .nan))

/-- Embedded from `src/app.rs` (lines 187-192): the minimum scan, starting
at `f64::INFINITY`. -/
def hmapMin (g : FGrid) : F :=
  (g.iter.map (fun t => t.2.2)).foldl F.fmin .pinf

/-- Embedded from `src/app.rs` (lines 187-192): the maximum scan, starting
at `f64::NEG_INFINITY`. -/
def hmapMax (g : FGrid) : F :=
  (g.iter.map (fun t => t.2.2)).foldl F.fmax .ninf

/-- Embedded from `src/app.rs` (line 199): the gray level of one cell. -/
def grayOf (v mn mx : F) : Nat :=
  (((v.sub mn).div (mx.sub mn)).mul (.fin 255)).toU8

/-- Writing one pixel of the image (`put_pixel`). -/
def putPix (img : Nat × Nat → Nat) (k : Nat × Nat) (v : Nat) : Nat × Nat → Nat :=
  fun k' => if k' = k then v else img k'

/-- Embedded from `src/app.rs` (lines 194-205): the rendered preview image,
as a pixel function; each iterated cell `(x, y, v)` is written at
`(x, height - y - 1)` with its gray level; `RgbImage::new` starts all-zero. -/
def renderHmap (g : FGrid) : Nat × Nat → Nat :=
  g.iter.foldl
    (fun img t => putPix img (t.1, g.height - t.2.1 - 1)
      (grayOf t.2.2 (hmapMin g) (hmapMax g)))
    (fun _ => 0)

/-! ### Rendering lemmas -/

theorem foldl_putPix_not_mem (l : List ((Nat × Nat) × Nat)) (img : Nat × Nat → Nat)
    (k : Nat × Nat) (h : ∀ e ∈ l, e.1 ≠ k) :
    (l.foldl (fun im e => putPix im e.1 e.2) img) k = img k := by
  induction l generalizing img with
  | nil => rfl
  | cons e rest ih =>
      rw [List.foldl_cons]
      rw [ih (putPix img e.1 e.2) (fun x hx => h x (List.mem_cons_of_mem e hx))]
      unfold putPix
      rw [if_neg]
      intro hk
      exact h e (List.mem_cons_self e rest) hk.symm

theorem foldl_putPix_mem (l : List ((Nat × Nat) × Nat)) (img : Nat × Nat → Nat)
    (k : Nat × Nat) (v : Nat) (hnd : (l.map Prod.fst).Nodup) (hmem : (k, v) ∈ l) :
    (l.foldl (fun im e => putPix im e.1 e.2) img) k = v := by
  induction l generalizing img with
  | nil => simp at hmem
  | cons e rest ih =>
      rw [List.map_cons, List.nodup_cons] at hnd
      obtain ⟨hke, hnd'⟩ := hnd
      rw [List.foldl_cons]
      rcases List.mem_cons.mp hmem with heq | hmem'
      · subst heq
        rw [foldl_putPix_not_mem]
        · unfold putPix
          rw [if_pos rfl]
        · intro e' he' hk
          apply hke
          rw [← hk]
          show e'.1 ∈ List.map Prod.fst rest
          exact List.mem_map_of_mem Prod.fst he'
      · exact ih (putPix img e.1 e.2) hnd' hmem'

theorem foldl_putPix_zero (l : List ((Nat × Nat) × Nat)) (img : Nat × Nat → Nat)
    (himg : ∀ k, img k = 0) (h : ∀ e ∈ l, e.2 = 0) :
    ∀ k, (l.foldl (fun im e => putPix im e.1 e.2) img) k = 0 := by
  induction l generalizing img with
  | nil => exact himg
  | cons e rest ih =>
      intro k
      rw [List.foldl_cons]
      apply ih
      · intro k'
        show (if k' = e.1 then e.2 else img k') = 0
        rw [h e (List.mem_cons_self e rest)]
        by_cases hk : k' = e.1
        · rw [if_pos hk]
        · rw [if_neg hk]
          exact himg k'
      · intro e' he'
        exact h e' (List.mem_cons_of_mem e he')

theorem fgrid_iter_values (g : FGrid) (hlen : g.data.length = g.width * g.height) :
    g.iter.map (fun t => t.2.2) = g.data := by
  unfold FGrid.iter
  rw [List.map_map, ← hlen]
  have : ((fun (t : Nat × Nat × F) => t.2.2) ∘
      fun i => (i % g.width, i / g.width, g.data.getD i .nan))
      = fun i => g.data.getD i .nan := rfl
  rw [this, map_getD_range]

theorem render_keys_nodup (g : FGrid) :
    (g.iter.map (fun t => (t.1, g.height - t.2.1 - 1))).Nodup := by
  unfold FGrid.iter
  rw [List.map_map]
  refine List.Nodup.map_on ?_ (List.nodup_range _)
  intro i hi j hj heq
  simp only [List.mem_range] at hi hj
  simp only [Function.comp, Prod.mk.injEq] at heq
  obtain ⟨h1, h2⟩ := heq
  have hw : 0 < g.width := by
    rcases Nat.eq_zero_or_pos g.width with h0 | h0
    · rw [h0] at hi
      simp at hi
    · exact h0
  have hiw : i / g.width < g.height := Nat.div_lt_of_lt_mul (by omega)
  have hjw : j / g.width < g.height := Nat.div_lt_of_lt_mul (by omega)
  have hdiv : i / g.width = j / g.width := by omega
  have di := Nat.div_add_mod i g.width
  have dj := Nat.div_add_mod j g.width
  rw [← di, ← dj, hdiv, h1]

theorem renderHmap_writes (g : FGrid) :
    renderHmap g
      = (g.iter.map (fun t => ((t.1, g.height - t.2.1 - 1),
          grayOf t.2.2 (hmapMin g) (hmapMax g)))).foldl
          (fun im e => putPix im e.1 e.2) (fun _ => 0) := by
  unfold renderHmap
  rw [List.foldl_map]

theorem renderHmap_pixel (g : FGrid) (x y : Nat) (v : F) (hmem : (x, y, v) ∈ g.iter) :
    renderHmap g (x, g.height - 1 - y) = grayOf v (hmapMin g) (hmapMax g) := by
  have hkey : g.height - 1 - y = g.height - y - 1 := by omega
  rw [hkey, renderHmap_writes]
  apply foldl_putPix_mem
  · rw [List.map_map]
    have : (Prod.fst ∘ fun (t : Nat × Nat × F) => ((t.1, g.height - t.2.1 - 1),
        grayOf t.2.2 (hmapMin g) (hmapMax g)))
        = fun t => (t.1, g.height - t.2.1 - 1) := rfl
    rw [this]
    exact render_keys_nodup g
  · show ((x, g.height - y - 1), grayOf v (hmapMin g) (hmapMax g))
      ∈ g.iter.map (fun t => ((t.1, g.height - t.2.1 - 1),
          grayOf t.2.2 (hmapMin g) (hmapMax g)))
    exact List.mem_map_of_mem _ hmem

theorem foldl_fmin_acc (l : List F) (hfin : ∀ x ∈ l, x.isFinite = true) :
    ∀ a : ℚ, ∃ q, l.foldl F.fmin (.fin a) = .fin q ∧ (F.fin q ∈ l ∨ q = a) ∧ q ≤ a
      ∧ ∀ r, F.fin r ∈ l → q ≤ r := by
  induction l with
  | nil =>
      intro a
      exact ⟨a, rfl, Or.inr rfl, le_refl a, by simp⟩
  | cons x rest ih =>
      intro a
      have hx := hfin x (List.mem_cons_self x rest)
      have hrest : ∀ y ∈ rest, y.isFinite = true :=
        fun y hy => hfin y (List.mem_cons_of_mem x hy)
      cases x with
      | nan => simp [F.isFinite] at hx
      | pinf => simp [F.isFinite] at hx
      | ninf => simp [F.isFinite] at hx
      | fin qx =>
          rw [List.foldl_cons]
          by_cases hab : a ≤ qx
          · have hstep : F.fmin (.fin a) (.fin qx) = .fin a := by
              simp [F.fmin, hab]
            rw [hstep]
            obtain ⟨q, hfold, hmem, hle, hbd⟩ := ih hrest a
            refine ⟨q, hfold, ?_, hle, ?_⟩
            · rcases hmem with h | h
              · exact Or.inl (List.mem_cons_of_mem _ h)
              · exact Or.inr h
            · intro r hr
              rcases List.mem_cons.mp hr with he | hr'
              · have : r = qx := by
                  simpa [F.fin.injEq] using he
                rw [this]
                exact le_trans hle hab
              · exact hbd r hr'
          · have hstep : F.fmin (.fin a) (.fin qx) = .fin qx := by
              simp [F.fmin, hab]
            rw [hstep]
            obtain ⟨q, hfold, hmem, hle, hbd⟩ := ih hrest qx
            refine ⟨q, hfold, ?_, ?_, ?_⟩
            · rcases hmem with h | h
              · exact Or.inl (List.mem_cons_of_mem _ h)
              · exact Or.inl (by rw [h]; exact List.mem_cons_self _ _)
            · have : qx ≤ a := le_of_not_le hab
              exact le_trans hle this
            · intro r hr
              rcases List.mem_cons.mp hr with he | hr'
              · have : r = qx := by
                  simpa [F.fin.injEq] using he
                rw [this]
                exact hle
              · exact hbd r hr'

theorem foldl_fmin_char (l : List F) (hfin : ∀ x ∈ l, x.isFinite = true)
    (hne : l ≠ []) :
    ∃ q, l.foldl F.fmin .pinf = .fin q ∧ F.fin q ∈ l ∧ ∀ r, F.fin r ∈ l → q ≤ r := by
  cases l with
  | nil => exact absurd rfl hne
  | cons x rest =>
      have hx := hfin x (List.mem_cons_self x rest)
      have hrest : ∀ y ∈ rest, y.isFinite = true :=
        fun y hy => hfin y (List.mem_cons_of_mem x hy)
      cases x with
      | nan => simp [F.isFinite] at hx
      | pinf => simp [F.isFinite] at hx
      | ninf => simp [F.isFinite] at hx
      | fin qx =>
          rw [List.foldl_cons]
          have hstep : F.fmin .pinf (.fin qx) = .fin qx := rfl
          rw [hstep]
          obtain ⟨q, hfold, hmem, hle, hbd⟩ := foldl_fmin_acc rest hrest qx
          refine ⟨q, hfold, ?_, ?_⟩
          · rcases hmem with h | h
            · exact List.mem_cons_of_mem _ h
            · rw [h]
              exact List.mem_cons_self _ _
          · intro r hr
            rcases List.mem_cons.mp hr with he | hr'
            · have : r = qx := by
                simpa [F.fin.injEq] using he
              rw [this]
              exact hle
            · exact hbd r hr'

theorem foldl_fmax_acc (l : List F) (hfin : ∀ x ∈ l, x.isFinite = true) :
    ∀ a : ℚ, ∃ q, l.foldl F.fmax (.fin a) = .fin q ∧ (F.fin q ∈ l ∨ q = a) ∧ a ≤ q
      ∧ ∀ r, F.fin r ∈ l → r ≤ q := by
  induction l with
  | nil =>
      intro a
      exact ⟨a, rfl, Or.inr rfl, le_refl a, by simp⟩
  | cons x rest ih =>
      intro a
      have hx := hfin x (List.mem_cons_self x rest)
      have hrest : ∀ y ∈ rest, y.isFinite = true :=
        fun y hy => hfin y (List.mem_cons_of_mem x hy)
      cases x with
      | nan => simp [F.isFinite] at hx
      | pinf => simp [F.isFinite] at hx
      | ninf => simp [F.isFinite] at hx
      | fin qx =>
          rw [List.foldl_cons]
          by_cases hab : a ≤ qx
          · have hstep : F.fmax (.fin a) (.fin qx) = .fin qx := by
              simp [F.fmax, hab]
            rw [hstep]
            obtain ⟨q, hfold, hmem, hle, hbd⟩ := ih hrest qx
            refine ⟨q, hfold, ?_, le_trans hab hle, ?_⟩
            · rcases hmem with h | h
              · exact Or.inl (List.mem_cons_of_mem _ h)
              · exact Or.inl (by rw [h]; exact List.mem_cons_self _ _)
            · intro r hr
              rcases List.mem_cons.mp hr with he | hr'
              · have : r = qx := by
                  simpa [F.fin.injEq] using he
                rw [this]
                exact hle
              · exact hbd r hr'
          · have hstep : F.fmax (.fin a) (.fin qx) = .fin a := by
              simp [F.fmax, hab]
            rw [hstep]
            obtain ⟨q, hfold, hmem, hle, hbd⟩ := ih hrest a
            refine ⟨q, hfold, ?_, hle, ?_⟩
            · rcases hmem with h | h
              · exact Or.inl (List.mem_cons_of_mem _ h)
              · exact Or.inr h
            · intro r hr
              rcases List.mem_cons.mp hr with he | hr'
              · have : r = qx := by
                  simpa [F.fin.injEq] using he
                rw [this]
                exact le_trans (le_of_not_le hab) hle
              · exact hbd r hr'

theorem foldl_fmax_char (l : List F) (hfin : ∀ x ∈ l, x.isFinite = true)
    (hne : l ≠ []) :
    ∃ q, l.foldl F.fmax .ninf = .fin q ∧ F.fin q ∈ l ∧ ∀ r, F.fin r ∈ l → r ≤ q := by
  cases l with
  | nil => exact absurd rfl hne
  | cons x rest =>
      have hx := hfin x (List.mem_cons_self x rest)
      have hrest : ∀ y ∈ rest, y.isFinite = true :=
        fun y hy => hfin y (List.mem_cons_of_mem x hy)
      cases x with
      | nan => simp [F.isFinite] at hx
      | pinf => simp [F.isFinite] at hx
      | ninf => simp [F.isFinite] at hx
      | fin qx =>
          rw [List.foldl_cons]
          have hstep : F.fmax .ninf (.fin qx) = .fin qx := rfl
          rw [hstep]
          obtain ⟨q, hfold, hmem, hle, hbd⟩ := foldl_fmax_acc rest hrest qx
          refine ⟨q, hfold, ?_, ?_⟩
          · rcases hmem with h | h
            · exact List.mem_cons_of_mem _ h
            · rw [h]
              exact List.mem_cons_self _ _
          · intro r hr
            rcases List.mem_cons.mp hr with he | hr'
            · have : r = qx := by
                simpa [F.fin.injEq] using he
              rw [this]
              exact hle
            · exact hbd r hr'

theorem ovfl_big : (255 : ℚ) < ovfl := by
  norm_num [ovfl]

theorem ovfl_pos : (0 : ℚ) < ovfl :=
  lt_trans (by norm_num) ovfl_big

theorem ofRat_small (q : ℚ) (h1 : -ovfl < q) (h2 : q < ovfl) : F.ofRat q = .fin q := by
  unfold F.ofRat
  rw [if_neg (by linarith), if_neg (by linarith)]

theorem ofRat_zero : F.ofRat 0 = .fin 0 :=
  ofRat_small 0 (by linarith [ovfl_pos]) ovfl_pos

theorem grayOf_min (qm qM : ℚ) (hlt : qm < qM) :
    grayOf (.fin qm) (.fin qm) (.fin qM) = 0 := by
  have hd : 0 < qM - qm := sub_pos.mpr hlt
  have hsub1 : F.sub (.fin qm) (.fin qm) = .fin 0 := by
    show F.ofRat (qm - qm) = .fin 0
    rw [sub_self, ofRat_zero]
  have hmul0 : F.mul (.fin 0) (.fin 255) = .fin 0 := by
    show F.ofRat (0 * 255) = .fin 0
    rw [zero_mul, ofRat_zero]
  unfold grayOf
  rw [hsub1]
  by_cases hov : ovfl ≤ qM - qm
  · have hsub2 : F.sub (.fin qM) (.fin qm) = .pinf := by
      show F.ofRat (qM - qm) = .pinf
      unfold F.ofRat
      rw [if_pos hov]
    rw [hsub2]
    have hdiv : F.div (.fin 0) .pinf = .fin 0 := rfl
    rw [hdiv, hmul0]
    simp [F.toU8]
  · push_neg at hov
    have hsub2 : F.sub (.fin qM) (.fin qm) = .fin (qM - qm) := by
      show F.ofRat (qM - qm) = .fin (qM - qm)
      exact ofRat_small _ (by linarith [ovfl_pos]) hov
    rw [hsub2]
    have hdiv : F.div (.fin 0) (.fin (qM - qm)) = .fin 0 := by
      have heq : F.div (.fin 0) (.fin (qM - qm))
          = if qM - qm = 0 then
              (if (0 : ℚ) = 0 then F.nan else if (0 : ℚ) < 0 then F.pinf else F.ninf)
            else F.ofRat (0 / (qM - qm)) := rfl
      rw [heq, if_neg (by linarith), zero_div, ofRat_zero]
    rw [hdiv, hmul0]
    simp [F.toU8]

theorem grayOf_max (qm qM : ℚ) (hlt : qm < qM) (hov : qM - qm < ovfl) :
    grayOf (.fin qM) (.fin qm) (.fin qM) = 255 := by
  have hd : 0 < qM - qm := sub_pos.mpr hlt
  have hsub2 : F.sub (.fin qM) (.fin qm) = .fin (qM - qm) := by
    show F.ofRat (qM - qm) = .fin (qM - qm)
    exact ofRat_small _ (by linarith [ovfl_pos]) hov
  unfold grayOf
  rw [hsub2]
  have hdiv : F.div (.fin (qM - qm)) (.fin (qM - qm)) = .fin 1 := by
    have heq : F.div (.fin (qM - qm)) (.fin (qM - qm))
        = if qM - qm = 0 then
            (if qM - qm = 0 then F.nan else if 0 < qM - qm then F.pinf else F.ninf)
          else F.ofRat ((qM - qm) / (qM - qm)) := rfl
    rw [heq, if_neg (by linarith), div_self (by linarith)]
    exact ofRat_small 1 (by linarith [ovfl_pos]) (by linarith [ovfl_big])
  rw [hdiv]
  have hmul : F.mul (.fin 1) (.fin 255) = .fin 255 := by
    show F.ofRat (1 * 255) = .fin 255
    rw [one_mul]
    exact ofRat_small 255 (by linarith [ovfl_pos, ovfl_big]) ovfl_big
  rw [hmul]
  norm_num [F.toU8]

theorem grayOf_const (c : ℚ) : grayOf (.fin c) (.fin c) (.fin c) = 0 := by
  have hsub : F.sub (.fin c) (.fin c) = .fin 0 := by
    show F.ofRat (c - c) = .fin 0
    rw [sub_self, ofRat_zero]
  unfold grayOf
  rw [hsub]
  have hdiv : F.div (.fin 0) (.fin 0) = .nan := by norm_num [F.div]
  rw [hdiv]
  rfl

/-- C10 counterexample to the claim as stated, twice over.  First, the 2x1
grid with cells `-inf` and `0` is non-constant (its two cells differ), its
maximum scan value is the cell `0`, yet that maximum cell renders gray level
0 (black), not 255 (white): `0 - (-inf) = +inf`, `+inf / +inf = NaN`, and
the cast maps NaN to 0.  Second, even with every cell finite the same
failure occurs through overflow: on the non-constant 2x1 grid with cells
`-f64::MAX` and `f64::MAX`, the subtraction `max - min = 2 * f64::MAX`
overflows to `+inf`, `+inf / +inf = NaN`, and the maximum cell again renders
0, not 255. -/
theorem hmap_max_white_counterexample :
    (F.ninf ≠ F.fin 0
      ∧ (0, 0, F.ninf) ∈ (FGrid.mk 2 1 [F.ninf, F.fin 0]).iter
      ∧ (1, 0, F.fin 0) ∈ (FGrid.mk 2 1 [F.ninf, F.fin 0]).iter
      ∧ hmapMax (FGrid.mk 2 1 [F.ninf, F.fin 0]) = F.fin 0
      ∧ renderHmap (FGrid.mk 2 1 [F.ninf, F.fin 0]) (1, 1 - 1 - 0) = 0
      ∧ renderHmap (FGrid.mk 2 1 [F.ninf, F.fin 0]) (1, 1 - 1 - 0) ≠ 255)
    ∧ ((∀ c ∈ (FGrid.mk 2 1 [F.fin (-maxFinite), F.fin maxFinite]).data,
          c.isFinite = true)
      ∧ F.fin (-maxFinite) ≠ F.fin maxFinite
      ∧ (0, 0, F.fin (-maxFinite))
          ∈ (FGrid.mk 2 1 [F.fin (-maxFinite), F.fin maxFinite]).iter
      ∧ (1, 0, F.fin maxFinite)
          ∈ (FGrid.mk 2 1 [F.fin (-maxFinite), F.fin maxFinite]).iter
      ∧ hmapMax (FGrid.mk 2 1 [F.fin (-maxFinite), F.fin maxFinite])
          = F.fin maxFinite
      ∧ renderHmap (FGrid.mk 2 1 [F.fin (-maxFinite), F.fin maxFinite])
          (1, 1 - 1 - 0) = 0
      ∧ renderHmap (FGrid.mk 2 1 [F.fin (-maxFinite), F.fin maxFinite])
          (1, 1 - 1 - 0) ≠ 255) := by
  have hM : (0 : ℚ) < maxFinite := by norm_num [maxFinite]
  have hiter2 : (FGrid.mk 2 1 [F.fin (-maxFinite), F.fin maxFinite]).iter
      = [(0, 0, F.fin (-maxFinite)), (1, 0, F.fin maxFinite)] := rfl
  have hdata2 : (FGrid.mk 2 1 [F.fin (-maxFinite), F.fin maxFinite]).data
      = [F.fin (-maxFinite), F.fin maxFinite] := rfl
  have hmin2 : hmapMin (FGrid.mk 2 1 [F.fin (-maxFinite), F.fin maxFinite])
      = F.fin (-maxFinite) := by
    unfold hmapMin
    rw [hiter2]
    show F.fmin (F.fmin .pinf (.fin (-maxFinite))) (.fin maxFinite) = F.fin (-maxFinite)
    show (if -maxFinite ≤ maxFinite then F.fin (-maxFinite) else F.fin maxFinite)
      = F.fin (-maxFinite)
    rw [if_pos (by linarith)]
  have hmax2 : hmapMax (FGrid.mk 2 1 [F.fin (-maxFinite), F.fin maxFinite])
      = F.fin maxFinite := by
    unfold hmapMax
    rw [hiter2]
    show F.fmax (F.fmax .ninf (.fin (-maxFinite))) (.fin maxFinite) = F.fin maxFinite
    show (if -maxFinite ≤ maxFinite then F.fin maxFinite else F.fin (-maxFinite))
      = F.fin maxFinite
    rw [if_pos (by linarith)]
  have hsub2 : F.sub (.fin maxFinite) (.fin (-maxFinite)) = .pinf := by
    show F.ofRat (maxFinite - -maxFinite) = .pinf
    unfold F.ofRat
    rw [if_pos (by norm_num [ovfl, maxFinite])]
  have hgray2 : grayOf (.fin maxFinite) (.fin (-maxFinite)) (.fin maxFinite) = 0 := by
    unfold grayOf
    rw [hsub2]
    rfl
  have hrender2 : renderHmap (FGrid.mk 2 1 [F.fin (-maxFinite), F.fin maxFinite])
      (1, 1 - 1 - 0) = 0 := by
    have hpx := renderHmap_pixel (FGrid.mk 2 1 [F.fin (-maxFinite), F.fin maxFinite])
      1 0 (F.fin maxFinite)
      (by rw [hiter2]; exact List.mem_cons_of_mem _ (List.mem_cons_self _ _))
    rw [hmin2, hmax2, hgray2] at hpx
    exact hpx
  refine ⟨⟨by decide, by decide, by decide, by decide, by decide, by decide⟩,
    ?_, ?_, ?_, ?_, hmax2, hrender2, ?_⟩
  · intro c hc
    rw [hdata2] at hc
    simp only [List.mem_cons, List.not_mem_nil, or_false] at hc
    rcases hc with h | h <;> rw [h] <;> rfl
  · simp only [ne_eq, F.fin.injEq]
    intro h
    linarith
  · rw [hiter2]
    exact List.mem_cons_self _ _
  · rw [hiter2]
    exact List.mem_cons_of_mem _ (List.mem_cons_self _ _)
  · rw [hrender2]
    norm_num

/-- C10 (amended): every iterated cell `(x, y, v)` is drawn at image pixel
`(x, height - 1 - y)` with gray level `((v - min) / (max - min) * 255)` cast
to u8, min and max being the scan results over all cells; for a non-constant
grid all of whose cells are finite, a minimum cell renders black (0), and
when additionally the computed span `max - min` does not overflow to
infinity, a maximum cell renders white (255); and for a constant grid the
division yields NaN, cast to 0, so every pixel is 0 (an all-black image
rather than a failure). -/
theorem hmap_render_spec (g : FGrid) (hlen : g.data.length = g.width * g.height) :
    (∀ x y v, (x, y, v) ∈ g.iter →
        renderHmap g (x, g.height - 1 - y) = grayOf v (hmapMin g) (hmapMax g))
    ∧ ((∀ c ∈ g.data, c.isFinite = true) →
        (∃ t1 ∈ g.iter, ∃ t2 ∈ g.iter,
            (t1 : Nat × Nat × F).2.2 ≠ (t2 : Nat × Nat × F).2.2) →
        (∀ x y v, (x, y, v) ∈ g.iter → v = hmapMin g →
            renderHmap g (x, g.height - 1 - y) = 0)
        ∧ (((hmapMax g).sub (hmapMin g)).isFinite = true →
            ∀ x y v, (x, y, v) ∈ g.iter → v = hmapMax g →
              renderHmap g (x, g.height - 1 - y) = 255))
    ∧ ((∃ c : ℚ, ∀ x ∈ g.data, x = F.fin c) →
        ∀ px py, renderHmap g (px, py) = 0) := by
  have hvals : g.iter.map (fun t => t.2.2) = g.data := fgrid_iter_values g hlen
  refine ⟨fun x y v h => renderHmap_pixel g x y v h, ?_, ?_⟩
  · intro hfin hnc
    obtain ⟨t1, ht1, t2, ht2, hneq⟩ := hnc
    have hmem1 : t1.2.2 ∈ g.data := by
      rw [← hvals]
      exact List.mem_map_of_mem _ ht1
    have hmem2 : t2.2.2 ∈ g.data := by
      rw [← hvals]
      exact List.mem_map_of_mem _ ht2
    have hne : g.data ≠ [] := by
      intro h0
      rw [h0] at hmem1
      simp at hmem1
    obtain ⟨qm, hqmEq, hqmMem, hqmLb⟩ := foldl_fmin_char g.data hfin hne
    obtain ⟨qM, hqMEq, hqMMem, hqMUb⟩ := foldl_fmax_char g.data hfin hne
    have hminEq : hmapMin g = .fin qm := by
      unfold hmapMin
      rw [hvals, hqmEq]
    have hmaxEq : hmapMax g = .fin qM := by
      unfold hmapMax
      rw [hvals, hqMEq]
    obtain ⟨q1, hq1⟩ : ∃ q, t1.2.2 = F.fin q := by
      have := hfin _ hmem1
      cases hv : t1.2.2 <;> rw [hv] at this <;> simp [F.isFinite] at this
      case fin q => exact ⟨q, rfl⟩
    obtain ⟨q2, hq2⟩ : ∃ q, t2.2.2 = F.fin q := by
      have := hfin _ hmem2
      cases hv : t2.2.2 <;> rw [hv] at this <;> simp [F.isFinite] at this
      case fin q => exact ⟨q, rfl⟩
    have hq12 : q1 ≠ q2 := by
      intro h
      exact hneq (by rw [hq1, hq2, h])
    have h1lb := hqmLb q1 (hq1 ▸ hmem1)
    have h2lb := hqmLb q2 (hq2 ▸ hmem2)
    have h1ub := hqMUb q1 (hq1 ▸ hmem1)
    have h2ub := hqMUb q2 (hq2 ▸ hmem2)
    have hlt : qm < qM := by
      by_contra hc
      push_neg at hc
      exact hq12 (le_antisymm (le_trans h1ub (le_trans hc h2lb))
        (le_trans h2ub (le_trans hc h1lb)))
    constructor
    · intro x y v hmemv hvmin
      rw [renderHmap_pixel g x y v hmemv, hvmin, hminEq, hmaxEq]
      exact grayOf_min qm qM hlt
    · intro hspan x y v hmemv hvmax
      have hov : qM - qm < ovfl := by
        rw [hminEq, hmaxEq] at hspan
        have hs : F.sub (.fin qM) (.fin qm) = F.ofRat (qM - qm) := rfl
        rw [hs] at hspan
        unfold F.ofRat at hspan
        by_cases h1 : ovfl ≤ qM - qm
        · rw [if_pos h1] at hspan
          simp [F.isFinite] at hspan
        · exact lt_of_not_le h1
      rw [renderHmap_pixel g x y v hmemv, hvmax, hminEq, hmaxEq]
      exact grayOf_max qm qM hlt hov
  · intro hconst px py
    obtain ⟨c, hc⟩ := hconst
    rw [renderHmap_writes]
    apply foldl_putPix_zero
    · intro k
      rfl
    · intro e he
      obtain ⟨t, ht, hte⟩ := List.mem_map.mp he
      rw [← hte]
      show grayOf t.2.2 (hmapMin g) (hmapMax g) = 0
      have hmemv : t.2.2 ∈ g.data := by
        rw [← hvals]
        exact List.mem_map_of_mem _ ht
      have hfin : ∀ x ∈ g.data, x.isFinite = true := by
        intro x hx
        rw [hc x hx]
        rfl
      have hne : g.data ≠ [] := by
        intro h0
        rw [h0] at hmemv
        simp at hmemv
      obtain ⟨qm, hqmEq, hqmMem, _⟩ := foldl_fmin_char g.data hfin hne
      obtain ⟨qM, hqMEq, hqMMem, _⟩ := foldl_fmax_char g.data hfin hne
      have hqm : qm = c := by
        have := hc _ hqmMem
        simpa [F.fin.injEq] using this
      have hqM : qM = c := by
        have := hc _ hqMMem
        simpa [F.fin.injEq] using this
      have hminEq : hmapMin g = .fin c := by
        unfold hmapMin
        rw [hvals, hqmEq, hqm]
      have hmaxEq : hmapMax g = .fin c := by
        unfold hmapMax
        rw [hvals, hqMEq, hqM]
      rw [hc _ hmemv, hminEq, hmaxEq]
      exact grayOf_const c

/-- C10 (amended) witness: on the 2x1 grid with finite cells 0 and 1 (whose
span 1 does not overflow), the minimum cell renders 0 and the maximum
renders 255; the constant 1x1 grid with cell 5 renders all pixels 0. -/
theorem hmap_render_spec_witness :
    (FGrid.mk 2 1 [F.fin 0, F.fin 1]).data.length = 2 * 1
    ∧ renderHmap (FGrid.mk 2 1 [F.fin 0, F.fin 1]) (0, 1 - 1 - 0) = 0
    ∧ renderHmap (FGrid.mk 2 1 [F.fin 0, F.fin 1]) (1, 1 - 1 - 0) = 255
    ∧ (∀ px py, renderHmap (FGrid.mk 1 1 [F.fin 5]) (px, py) = 0) := by
  have hspan : ((hmapMax (FGrid.mk 2 1 [F.fin 0, F.fin 1])).sub
      (hmapMin (FGrid.mk 2 1 [F.fin 0, F.fin 1]))).isFinite = true := by
    have hmax1 : hmapMax (FGrid.mk 2 1 [F.fin 0, F.fin 1]) = F.fin 1 := by decide
    have hmin1 : hmapMin (FGrid.mk 2 1 [F.fin 0, F.fin 1]) = F.fin 0 := by decide
    rw [hmax1, hmin1]
    show (F.ofRat (1 - 0)).isFinite = true
    rw [show ((1 : ℚ) - 0) = 1 by norm_num,
      ofRat_small 1 (by linarith [ovfl_pos]) (by linarith [ovfl_big])]
    rfl
  refine ⟨rfl, ?_, ?_, ?_⟩
  · exact ((hmap_render_spec (FGrid.mk 2 1 [F.fin 0, F.fin 1]) rfl).2.1
      (by decide) (by decide)).1 0 0 (F.fin 0) (by decide) (by decide)
  · exact ((hmap_render_spec (FGrid.mk 2 1 [F.fin 0, F.fin 1]) rfl).2.1
      (by decide) (by decide)).2 hspan 1 0 (F.fin 1) (by decide) (by decide)
  · exact (hmap_render_spec (FGrid.mk 1 1 [F.fin 5]) rfl).2.2 ⟨5, by decide⟩

end KPW
